import Mathlib

/-!
Verification development for the dinder repository: an interactive TUI that
scans a directory, lets the user review each entry (keep / delete / skip),
and deletes the confirmed set.

The definitions below are a shallow embedding of the Go sources:
  - file_scanner.go (the current revision, the one with ModTime, Preview and
    Skipped fields and the isCodeFile / getFileIcon helpers): FileItem,
    scanDirectory, getFilePreview, isTextFile, isCodeFile, getFileIcon.
  - tui.go: Screen, model, the bubbletea Update function and its input
    handlers, nextFile, prepareConfirmation, deleteFiles, View, formatSize.

External collaborators (the bubbletea runtime, lipgloss styling, the chroma
highlighter, the filesystem, the wall clock) are modelled as parameters:
a Renderer record carries the styling functions, a removal oracle carries
which os.RemoveAll calls succeed, and a file tree value feeds the walk.
-/

/-- One filesystem entry under review (struct FileItem in file_scanner.go).
Sizes are int64 in Go, modelled as Int; ModTime is an opaque timestamp. -/
structure FileItem where
  Path : String
  Name : String
  IsDir : Bool
  Size : Int
  ModTime : Int
  Preview : String
  Keep : Bool
  Decided : Bool
  Skipped : Bool
deriving DecidableEq, Repr

/-- Placeholder item used with List.getD; Go indexing panics out of range,
and every in-range use below is discharged separately. -/
def noFile : FileItem :=
  { Path := "", Name := "", IsDir := false, Size := 0, ModTime := 0,
    Preview := "", Keep := false, Decided := false, Skipped := false }

/-- Last slash-separated component of a path (filepath.Base, for the paths
this program builds). -/
def lastPathComponent (path : String) : String :=
  match (path.splitOn "/").reverse with
  | [] => path
  | x :: _ => x

/-- Suffix of a character list starting at its rightmost dot, if any. -/
def extOfChars : List Char → Option (List Char)
  | [] => none
  | c :: rest =>
    match extOfChars rest with
    | some e => some e
    | none => if c = '.' then some (c :: rest) else none

/-- filepath.Ext: the suffix beginning at the final dot in the final
element of the path, empty when that element has no dot. -/
def filepathExt (path : String) : String :=
  match extOfChars (lastPathComponent path).toList with
  | some cs => String.mk cs
  | none => ""

/-- Extension list of isTextFile in file_scanner.go. -/
def textExts : List String :=
  [".txt", ".md", ".go", ".js", ".ts", ".py", ".java", ".c", ".cpp", ".h",
   ".css", ".html", ".xml", ".json", ".yaml", ".yml", ".toml", ".ini",
   ".sh", ".bat", ".ps1", ".sql", ".r", ".php", ".rb", ".scala", ".kt"]

/-- isTextFile from file_scanner.go. -/
def isTextFile (path : String) : Bool :=
  textExts.contains (filepathExt path).toLower

/-- Extension list of isCodeFile in file_scanner.go. -/
def codeExts : List String :=
  [".go", ".js", ".ts", ".py", ".java", ".c", ".cpp", ".h", ".hpp",
   ".rs", ".php", ".rb", ".swift", ".kt", ".scala", ".jsx", ".tsx",
   ".vue", ".css", ".scss", ".sass", ".html", ".xml", ".json",
   ".yaml", ".yml", ".toml", ".sh", ".bash", ".zsh", ".fish",
   ".bat", ".ps1", ".sql", ".r", ".m", ".cs", ".vb", ".pl", ".lua"]

/-- isCodeFile from file_scanner.go: by extension, with the dockerfile and
makefile special cases. -/
def isCodeFile (path : String) : Bool :=
  if codeExts.contains (filepathExt path).toLower then true
  else
    let filename := (lastPathComponent path).toLower
    filename == "dockerfile" || filename == "makefile"

/-- The scanner loop of getFilePreview: walk the lines of the file keeping a
line when it is non-blank after trimming, or unconditionally for code files,
until maxLines lines have been kept. -/
def collectPreviewLines (path : String) (maxLines : Nat) : List String → Nat → List String
  | [], _ => []
  | l :: rest, cnt =>
    if cnt < maxLines then
      if l.trim != "" || isCodeFile path then
        l :: collectPreviewLines path maxLines rest (cnt + 1)
      else
        collectPreviewLines path maxLines rest cnt
    else []

/-- getFilePreview from file_scanner.go, over the lines of the file.
Go measures the 800 cutoff in bytes and slices bytes; the model counts
characters, which agrees on ASCII content (no claim depends on the cutoff). -/
def getFilePreview (path : String) (lines : List String) : String :=
  if !isTextFile path then ""
  else
    let maxLines : Nat := if isCodeFile path then 15 else 3
    let kept := collectPreviewLines path maxLines lines 0
    if kept.length = 0 then ""
    else
      let preview := String.intercalate "\n" kept
      if preview.length > 800 then preview.take 797 ++ "..." else preview

/-- The iconMap of getFileIcon in file_scanner.go, as a lookup function. -/
def iconMapLookup (key : String) : Option String :=
  match key with
  | ".go" => some "🐹"
  | ".js" => some "🟨"
  | ".ts" => some "🔷"
  | ".py" => some "🐍"
  | ".java" => some "☕"
  | ".c" => some "🔧"
  | ".cpp" => some "🔧"
  | ".h" => some "📋"
  | ".rs" => some "🦀"
  | ".php" => some "🐘"
  | ".rb" => some "💎"
  | ".swift" => some "🍎"
  | ".kt" => some "🟣"
  | ".scala" => some "🔴"
  | ".html" => some "🌐"
  | ".css" => some "🎨"
  | ".scss" => some "🎨"
  | ".sass" => some "🎨"
  | ".jsx" => some "⚛️"
  | ".tsx" => some "⚛️"
  | ".vue" => some "💚"
  | ".json" => some "📋"
  | ".xml" => some "📋"
  | ".yaml" => some "📋"
  | ".yml" => some "📋"
  | ".toml" => some "📋"
  | ".ini" => some "⚙️"
  | ".cfg" => some "⚙️"
  | ".conf" => some "⚙️"
  | ".md" => some "📝"
  | ".txt" => some "📄"
  | ".pdf" => some "📕"
  | ".doc" => some "📘"
  | ".docx" => some "📘"
  | ".xls" => some "📗"
  | ".xlsx" => some "📗"
  | ".ppt" => some "📙"
  | ".pptx" => some "📙"
  | ".jpg" => some "🖼️"
  | ".jpeg" => some "🖼️"
  | ".png" => some "🖼️"
  | ".gif" => some "🖼️"
  | ".svg" => some "🎨"
  | ".ico" => some "🖼️"
  | ".webp" => some "🖼️"
  | ".bmp" => some "🖼️"
  | ".mp3" => some "🎵"
  | ".wav" => some "🎵"
  | ".flac" => some "🎵"
  | ".m4a" => some "🎵"
  | ".ogg" => some "🎵"
  | ".mp4" => some "🎬"
  | ".avi" => some "🎬"
  | ".mkv" => some "🎬"
  | ".mov" => some "🎬"
  | ".wmv" => some "🎬"
  | ".flv" => some "🎬"
  | ".webm" => some "🎬"
  | ".zip" => some "📦"
  | ".tar" => some "📦"
  | ".gz" => some "📦"
  | ".rar" => some "📦"
  | ".7z" => some "📦"
  | ".bz2" => some "📦"
  | ".xz" => some "📦"
  | ".exe" => some "⚡"
  | ".app" => some "📱"
  | ".deb" => some "📦"
  | ".rpm" => some "📦"
  | ".dmg" => some "💿"
  | ".iso" => some "💿"
  | ".log" => some "📋"
  | ".tmp" => some "🗑️"
  | ".cache" => some "🗑️"
  | ".bak" => some "💾"
  | ".old" => some "💾"
  | ".sh" => some "🐚"
  | ".bash" => some "🐚"
  | ".zsh" => some "🐚"
  | ".fish" => some "🐚"
  | ".bat" => some "🖥️"
  | ".ps1" => some "🔷"
  | ".db" => some "🗄️"
  | ".sqlite" => some "🗄️"
  | ".sql" => some "🗄️"
  | ".git" => some "🔀"
  | "dockerfile" => some "🐳"
  | _ => none

/-- getFileIcon from file_scanner.go. -/
def getFileIcon (path : String) (isDir : Bool) : String :=
  if isDir then "📁"
  else
    let ext := (filepathExt path).toLower
    let filename := (lastPathComponent path).toLower
    let special :=
      if filename == "dockerfile" || filename == "makefile" || filename == "readme" then
        iconMapLookup filename
      else none
    match special with
    | some icon => icon
    | none =>
      match iconMapLookup ext with
      | some icon => icon
      | none => "📄"

/-- A file tree fed to the walk: the abstraction of the filesystem under the
root. A file carries its size, mod time and the lines the bufio scanner
would yield; a directory carries its metadata and children (in the lexical
order filepath.WalkDir uses). -/
inductive Entry where
  | file (name : String) (size modTime : Int) (lines : List String)
  | dir (name : String) (size modTime : Int) (children : List Entry)

def Entry.name : Entry → String
  | Entry.file n _ _ _ => n
  | Entry.dir n _ _ _ => n

def Entry.isDir : Entry → Bool
  | Entry.file .. => false
  | Entry.dir .. => true

def Entry.size : Entry → Int
  | Entry.file _ s _ _ => s
  | Entry.dir _ s _ _ => s

def Entry.modTime : Entry → Int
  | Entry.file _ _ t _ => t
  | Entry.dir _ _ t _ => t

def Entry.lines : Entry → List String
  | Entry.file _ _ _ ls => ls
  | Entry.dir .. => []

/-- The two walk callback outcomes scanDirectory uses: nil (continue) and
filepath.SkipDir. -/
inductive WalkAction where
  | cont
  | skipDir
deriving DecidableEq

/-- Child path construction of filepath.WalkDir (filepath.Join with a
cleaned "." root). -/
def joinPath (parent name : String) : String :=
  if parent = "." then name else parent ++ "/" ++ name

mutual

/-- filepath.WalkDir on one entry: run the callback, then per Go semantics:
SkipDir on a directory skips its children and continues with the siblings;
SkipDir on a non-directory tells the parent to skip its remaining entries
(the returned Bool); otherwise directories are descended into. -/
def walkEntry (cb : List FileItem → String → Entry → List FileItem × WalkAction)
    (st : List FileItem) (path : String) (e : Entry) : List FileItem × Bool :=
  match cb st path e, e with
  | (st1, WalkAction.skipDir), Entry.dir .. => (st1, false)
  | (st1, WalkAction.skipDir), Entry.file .. => (st1, true)
  | (st1, WalkAction.cont), Entry.file .. => (st1, false)
  | (st1, WalkAction.cont), Entry.dir _ _ _ children =>
    (walkEntries cb st1 path children, false)

/-- filepath.WalkDir over the entries of one directory, stopping early when a
child signals SkipDir from a non-directory. -/
def walkEntries (cb : List FileItem → String → Entry → List FileItem × WalkAction)
    (st : List FileItem) (dirPath : String) : List Entry → List FileItem
  | [] => st
  | e :: rest =>
    let r := walkEntry cb st (joinPath dirPath e.name) e
    if r.2 then r.1 else walkEntries cb r.1 dirPath rest

end

/-- filepath.Rel(".", p) for the slash-joined paths this walk builds: the
path itself. -/
def relPathFromDot (path : String) : String := path

/-- The walk callback of scanDirectory in file_scanner.go: skip the root,
exclude entries whose path relative to the root starts with a dot (SkipDir
for directories), otherwise record a FileItem (with a preview for small
non-directories) and SkipDir on directories so they are never descended. -/
def scanCallback (dir : String) (items : List FileItem) (path : String) (e : Entry) :
    List FileItem × WalkAction :=
  if path = dir then (items, WalkAction.cont)
  else
    let relPath := relPathFromDot path
    if relPath.startsWith "." then
      if e.isDir then (items, WalkAction.skipDir) else (items, WalkAction.cont)
    else
      let preview := if !e.isDir && e.size < 10240 then getFilePreview path e.lines else ""
      let item : FileItem :=
        { Path := path, Name := e.name, IsDir := e.isDir, Size := e.size,
          ModTime := e.modTime, Preview := preview,
          Keep := false, Decided := false, Skipped := false }
      if e.isDir then (items ++ [item], WalkAction.skipDir)
      else (items ++ [item], WalkAction.cont)

/-- scanDirectory(".") from file_scanner.go, over a file tree whose root
children are the given entries. -/
def scanDirectory (entries : List Entry) : List FileItem :=
  (walkEntry (scanCallback ".") [] "." (Entry.dir "." 0 0 entries)).1

/-- The item scanDirectory records for an immediate child of the root. -/
def scanItem (e : Entry) : FileItem :=
  { Path := e.name, Name := e.name, IsDir := e.isDir, Size := e.size,
    ModTime := e.modTime,
    Preview := if !e.isDir && e.size < 10240 then getFilePreview e.name e.lines else "",
    Keep := false, Decided := false, Skipped := false }

/-- Claim-side characterization of the scan result: the immediate children
of the root whose names do not begin with a dot, in order, one item each. -/
def scanExpected (es : List Entry) : List FileItem :=
  (es.filter (fun e => !(e.name.startsWith "."))).map scanItem

/-- A real directory listing never contains the "." entry; the hypothesis of
the scan theorem, in decidable form. -/
def entriesNamesOk (es : List Entry) : Bool :=
  es.all (fun e => !(e.name == "."))

/-- The five UI screens (type Screen in tui.go). -/
inductive Screen where
  | ScreenLoading
  | ScreenReview
  | ScreenConfirm
  | ScreenProgress
  | ScreenComplete
deriving DecidableEq, Repr

/-- The bubbletea model (struct model in tui.go). The Go int fields that
never go negative are Nat; the int64 byte counts are Int. -/
structure model where
  screen : Screen
  files : List FileItem
  currentFile : Nat
  toDelete : List FileItem
  toSkip : List FileItem
  spinner : Nat
  progress : Nat
  maxProgress : Nat
  totalSize : Int
  deletedSize : Int
  err : Option String
deriving DecidableEq, Repr

/-- The messages Update consumes: key presses (by their msg.String() form),
filesLoadedMsg, deletionCompleteMsg, tickMsg and the error case. -/
inductive Msg where
  | key (s : String)
  | filesLoaded (files : List FileItem)
  | deletionComplete
  | tick
  | errMsg (e : String)
deriving DecidableEq, Repr

/-- The commands the update functions return: nil, tea.Quit, tick(),
tea.Batch, loadFiles and the deleteFiles closure (which captures the
model's toDelete list). -/
inductive Cmd where
  | none
  | quit
  | tick
  | batch (cs : List Cmd)
  | loadFiles
  | deleteFiles (toDelete : List FileItem)

/-- spinnerFrames from tui.go. -/
def spinnerFrames : List String :=
  ["⠋", "⠙", "⠹", "⠸", "⠼", "⠴", "⠦", "⠧", "⠇", "⠏"]

/-- initialModel from tui.go; the unnamed Go fields take their zero values. -/
def initialModel : model :=
  { screen := Screen.ScreenLoading, files := [], currentFile := 0,
    toDelete := [], toSkip := [], spinner := 0, progress := 0,
    maxProgress := 0, totalSize := 0, deletedSize := 0, err := Option.none }

/-- The div/exp loop of formatSize, on the non-negative byte count. -/
def formatSizeLoop (n d e : Nat) : Nat × Nat :=
  if 1024 ≤ n then formatSizeLoop (n / 1024) (d * 1024) (e + 1) else (d, e)
termination_by n
decreasing_by exact Nat.div_lt_self (by omega) (by omega)

/-- formatSize from tui.go. Sizes are non-negative in practice; the
fractional branch realizes %.1f with exact round-half-up arithmetic in
place of float64 formatting (no claim exercises this branch). -/
def formatSize (bytes : Int) : String :=
  if bytes < 1024 then toString bytes ++ " B"
  else
    let q := bytes.toNat
    let de := formatSizeLoop (q / 1024) 1024 0
    let tenths := (q * 20 / de.1 + 1) / 2
    toString (tenths / 10) ++ "." ++ toString (tenths % 10) ++ " " ++
      String.singleton ("KMGTPE".toList.getD de.2 'K') ++ "B"

/-- In-place update of one slot of a Go slice. Go panics when the index is
out of range; the model leaves the list unchanged there, and every use in
the theorems below is at an in-range index. -/
def updateItem (files : List FileItem) (i : Nat) (f : FileItem → FileItem) : List FileItem :=
  match files.get? i with
  | some x => files.set i (f x)
  | Option.none => files

/-- The single pass of prepareConfirmation in tui.go: files that are
Decided and not Keep go to toDelete (accumulating totalSize), otherwise
Skipped files go to toSkip. -/
def prepareConfLoop (files td ts : List FileItem) (tot : Int) :
    List FileItem × List FileItem × Int :=
  match files with
  | [] => (td, ts, tot)
  | f :: rest =>
    if f.Decided && !f.Keep then prepareConfLoop rest (td ++ [f]) ts (tot + f.Size)
    else if f.Skipped then prepareConfLoop rest td (ts ++ [f]) tot
    else prepareConfLoop rest td ts tot

/-- prepareConfirmation from tui.go. -/
def prepareConfirmation (m : model) : model :=
  let r := prepareConfLoop m.files [] [] 0
  { m with toDelete := r.1, toSkip := r.2.1, totalSize := r.2.2 }

/-- The loop of nextFile in tui.go: increment the cursor; at or past the
end of the list, prepare the confirmation sets and switch to the Confirm
screen; otherwise stop on the first non-Skipped item. -/
def nextFileLoop (m : model) : model :=
  let c := m.currentFile + 1
  if _h : m.files.length ≤ c then
    { prepareConfirmation { m with currentFile := c } with screen := Screen.ScreenConfirm }
  else
    if (m.files.getD c noFile).Skipped then nextFileLoop { m with currentFile := c }
    else { m with currentFile := c }
termination_by m.files.length - m.currentFile
decreasing_by simp; omega

/-- nextFile from tui.go (returns the model and a nil command). -/
def nextFile (m : model) : model × Cmd :=
  (nextFileLoop m, Cmd.none)

/-- The two assignments of the keep/delete branches of handleReviewInput:
m.files[i].Keep = keep; m.files[i].Decided = true. -/
def setDecision (files : List FileItem) (i : Nat) (keep : Bool) : List FileItem :=
  updateItem files i (fun f => { f with Keep := keep, Decided := true })

/-- The assignment of the skip branch: m.files[i].Skipped = true. -/
def setSkippedAt (files : List FileItem) (i : Nat) : List FileItem :=
  updateItem files i (fun f => { f with Skipped := true })

/-- The two assignments of the undo branch: m.files[i].Decided = false;
m.files[i].Skipped = false. -/
def clearAt (files : List FileItem) (i : Nat) : List FileItem :=
  updateItem files i (fun f => { f with Decided := false, Skipped := false })

/-- handleReviewInput from tui.go. -/
def handleReviewInput (m : model) (s : String) : model × Cmd :=
  if s == "right" || s == "l" || s == "y" then
    nextFile { m with files := setDecision m.files m.currentFile true }
  else if s == "left" || s == "h" || s == "n" then
    nextFile { m with files := setDecision m.files m.currentFile false }
  else if s == "s" then
    nextFile { m with files := setSkippedAt m.files m.currentFile }
  else if s == "u" then
    if 0 < m.currentFile then
      ({ m with currentFile := m.currentFile - 1,
                files := clearAt m.files (m.currentFile - 1) }, Cmd.none)
    else (m, Cmd.none)
  else if s == "q" then (m, Cmd.quit)
  else (m, Cmd.none)

/-- handleConfirmInput from tui.go. -/
def handleConfirmInput (m : model) (s : String) : model × Cmd :=
  if s == "y" then
    let m1 := { m with screen := Screen.ScreenProgress, maxProgress := m.toDelete.length }
    (m1, Cmd.batch [Cmd.tick, Cmd.deleteFiles m1.toDelete])
  else if s == "n" || s == "q" then (m, Cmd.quit)
  else (m, Cmd.none)

/-- Update from tui.go. The KeyMsg switch dispatches Review and Confirm
keys to their handlers (which return unconditionally); the Complete screen
answers q and ctrl+c; every other screen falls through to the trailing
global ctrl+c check. -/
def Update (m : model) (msg : Msg) : model × Cmd :=
  match msg with
  | Msg.key s =>
    match m.screen with
    | Screen.ScreenReview => handleReviewInput m s
    | Screen.ScreenConfirm => handleConfirmInput m s
    | Screen.ScreenComplete =>
      if s == "q" || s == "ctrl+c" then (m, Cmd.quit)
      else if s == "ctrl+c" then (m, Cmd.quit)
      else (m, Cmd.none)
    | _ =>
      if s == "ctrl+c" then (m, Cmd.quit) else (m, Cmd.none)
  | Msg.filesLoaded fs =>
    if fs.length = 0 then ({ m with files := fs, screen := Screen.ScreenComplete }, Cmd.none)
    else ({ m with files := fs, screen := Screen.ScreenReview }, Cmd.none)
  | Msg.deletionComplete => ({ m with screen := Screen.ScreenComplete }, Cmd.none)
  | Msg.tick =>
    if m.screen = Screen.ScreenLoading ∨ m.screen = Screen.ScreenProgress then
      ({ m with spinner := (m.spinner + 1) % spinnerFrames.length }, Cmd.tick)
    else (m, Cmd.none)
  | Msg.errMsg e => ({ m with err := some e }, Cmd.quit)

/-- os.RemoveAll over an abstract filesystem (a list of existing paths):
when the removal oracle grants the call, the path and everything under it
disappear; on failure nothing changes. The Go code discards the error. -/
def removeAll (ok : String → Bool) (fs : List String) (p : String) : List String :=
  if ok p then fs.filter (fun q => !(q == p || q.startsWith (p ++ "/"))) else fs

/-- Executing the deleteFiles command of tui.go: remove each file of the
captured toDelete list in order, ignoring per-item failures, and finish
with the bare deletionCompleteMsg. -/
def runDeleteFiles (ok : String → Bool) (fs : List String) :
    List FileItem → List String × Msg
  | [] => (fs, Msg.deletionComplete)
  | f :: rest => runDeleteFiles ok (removeAll ok fs f.Path) rest

/-- The external styling collaborators of View: the lipgloss style Render
calls, lipgloss.JoinHorizontal, the chroma pipeline of
applySyntaxHighlighting, and time.Time.Format. -/
structure Renderer where
  titleRender : String → String
  fileRender : String → String
  codeFileRender : String → String
  codePreviewRender : String → String
  buttonRender : String → String
  keepButtonRender : String → String
  deleteButtonRender : String → String
  progressRender : String → String
  joinH : List String → String
  highlight : String → String → String
  formatTime : Int → String

/-- The trivial renderer used to evaluate View at concrete states. -/
def idRenderer : Renderer :=
  { titleRender := fun s => s, fileRender := fun s => s,
    codeFileRender := fun s => s, codePreviewRender := fun s => s,
    buttonRender := fun s => s, keepButtonRender := fun s => s,
    deleteButtonRender := fun s => s, progressRender := fun s => s,
    joinH := fun l => String.join l, highlight := fun code _ => code,
    formatTime := fun _ => "" }

/-- View from tui.go. -/
def View (r : Renderer) (m : model) : String :=
  match m.screen with
  | Screen.ScreenLoading =>
    "\n" ++ spinnerFrames.getD m.spinner "" ++ " Loading files...\n"
  | Screen.ScreenReview =>
    if m.files.length ≤ m.currentFile then "No more files to review"
    else
      let file := m.files.getD m.currentFile noFile
      let fileType := if file.IsDir then "DIR" else "FILE"
      let icon := getFileIcon file.Path file.IsDir
      let sizeStr := formatSize file.Size
      let dateStr := r.formatTime file.ModTime
      let content := icon ++ " " ++ fileType ++ "\n" ++ file.Path ++
        "\n\nSize: " ++ sizeStr ++ "\nModified: " ++ dateStr
      let boxes :=
        if file.Preview != "" then
          if isCodeFile file.Path then
            (r.codeFileRender content,
             r.codePreviewRender ("Code Preview:\n\n" ++ r.highlight file.Preview file.Path))
          else (r.fileRender (content ++ "\n\nPreview:\n" ++ file.Preview), "")
        else (r.fileRender content, "")
      let keepBtn := r.keepButtonRender "✓ Keep (→/l/y)"
      let deleteBtn := r.deleteButtonRender "✗ Delete (←/h/n)"
      let skipBtn := r.buttonRender "↷ Skip (s)"
      let buttons := r.joinH [keepBtn, "  ", deleteBtn, "  ", skipBtn]
      let progress := "Progress: " ++ toString (m.currentFile + 1) ++ "/" ++
        toString m.files.length
      let controls := "Controls: u=undo last | q=quit"
      if boxes.2 != "" then
        let topSection := r.joinH [boxes.1, "  ", boxes.2]
        "\n" ++ r.titleRender "File Review" ++ "\n\n" ++ topSection ++ "\n\n" ++
          buttons ++ "\n\n" ++ progress ++ "\n" ++ controls
      else
        "\n" ++ r.titleRender "File Review" ++ "\n\n" ++ boxes.1 ++ "\n\n" ++
          buttons ++ "\n\n" ++ progress ++ "\n" ++ controls
  | Screen.ScreenConfirm =>
    if m.toDelete.length = 0 then
      let skippedInfo :=
        if 0 < m.toSkip.length then
          "\n" ++ toString m.toSkip.length ++ " files skipped for later review."
        else ""
      "\n" ++ r.titleRender "Complete" ++ "\n\nNo files selected for deletion." ++
        skippedInfo ++ "\n\nPress q to quit"
    else
      let deleteList := String.join (m.toDelete.map (fun file =>
        "  " ++ getFileIcon file.Path file.IsDir ++ " " ++ file.Path ++ " (" ++
          formatSize file.Size ++ ")\n"))
      let sizeInfo := "Total size: " ++ formatSize m.totalSize
      let skippedInfo :=
        if 0 < m.toSkip.length then
          "\n" ++ toString m.toSkip.length ++ " files skipped."
        else ""
      "\n" ++ r.titleRender "Confirmation" ++ "\n\nFiles to delete (" ++
        toString m.toDelete.length ++ "):\n" ++ deleteList ++ "\n" ++ sizeInfo ++
        skippedInfo ++ "\n\nConfirm deletion? (y/n)"
  | Screen.ScreenProgress =>
    let bar := r.progressRender (spinnerFrames.getD m.spinner "" ++
      " Deleting files... " ++ toString m.progress ++ "/" ++ toString m.maxProgress)
    "\n" ++ r.titleRender "Progress" ++ "\n\n" ++ bar
  | Screen.ScreenComplete =>
    let stats := "Files deleted: " ++ toString m.toDelete.length ++
      "\nSpace freed: " ++ formatSize m.totalSize
    let skippedInfo :=
      if 0 < m.toSkip.length then
        "\n" ++ toString m.toSkip.length ++ " files were skipped."
      else ""
    "\n" ++ r.titleRender "Complete" ++ "\n\nDeletion complete!\n\n" ++ stats ++
      skippedInfo ++ "\n\nPress q to quit"

/-- Modelled from the spec: the traversal rule scan, from index j, skipping
every item whose deferred flag is true, stopping at the first non-deferred
item or the end of the list. -/
def specAdvanceGo (files : List FileItem) (j : Nat) : Nat :=
  if _h : j < files.length then
    if (files.getD j noFile).Skipped then specAdvanceGo files (j + 1) else j
  else files.length
termination_by files.length - j

/-- Modelled from the spec: advance starts scanning at cursor+1. -/
def specAdvance (files : List FileItem) (c : Nat) : Nat :=
  specAdvanceGo files (c + 1)

/-- Modelled from the spec: the Pending Deletion Set, the subsequence of
items whose decision is Delete. -/
def specDeleteSet (files : List FileItem) : List FileItem :=
  files.filter (fun f => f.Decided && !f.Keep)

/-- Modelled from the spec: the Pending Defer Set, the subsequence of items
with deferred true that are not finally decided. -/
def specDeferSet (files : List FileItem) : List FileItem :=
  files.filter (fun f => f.Skipped && !f.Decided)

/-- The per-item decision invariant of the spec, in decidable form: no item
both finally decided and deferred. (With the Decided/Keep boolean
representation an item is Undecided exactly when Decided is false, and a
decided item is exactly one of kept or deleted according to Keep.) -/
def itemsConsistent (files : List FileItem) : Bool :=
  files.all (fun f => !(f.Decided && f.Skipped))

/-- Session states reachable in the program: the state right after the
catalog loads (its items carry the scanner's cleared flags), followed by
any sequence of key events — which includes every decide, defer and undo
operation of the spec. -/
inductive Reach : model → Prop where
  | base (fs : List FileItem)
      (h : ∀ f ∈ fs, f.Decided = false ∧ f.Skipped = false) :
      Reach (Update initialModel (Msg.filesLoaded fs)).1
  | step (m : model) (s : String) (hm : Reach m) :
      Reach (Update m (Msg.key s)).1

/-- The inductive session invariant: the cursor stays in bounds, the Review
screen shows an existing item, everything at or after the cursor is still
untouched, and no item is both decided and deferred. -/
def SessionInv (m : model) : Prop :=
  m.currentFile ≤ m.files.length ∧
  (m.screen = Screen.ScreenReview → m.currentFile < m.files.length) ∧
  (∀ f ∈ m.files.drop m.currentFile, f.Decided = false ∧ f.Skipped = false) ∧
  (∀ f ∈ m.files, f.Decided = true → f.Skipped = false)

/-! ### Helper lemmas -/

theorem getD_eq_get (l : List FileItem) (j : Nat) (h : j < l.length) :
    l.getD j noFile = l.get ⟨j, h⟩ := by
  simp [List.getD, List.getElem?_eq_getElem h]

theorem getD_set_self (l : List FileItem) (i : Nat) (a : FileItem) (h : i < l.length) :
    (l.set i a).getD i noFile = a := by
  simp [List.getD, List.getElem?_set_self h]

theorem getD_set_ne (l : List FileItem) {i j : Nat} (a : FileItem) (h : i ≠ j) :
    (l.set i a).getD j noFile = l.getD j noFile := by
  simp [List.getD, List.getElem?_set_ne h]

theorem getD_of_get? {l : List FileItem} {i : Nat} {x : FileItem}
    (h : l.get? i = some x) : l.getD i noFile = x := by
  rw [List.get?_eq_getElem?] at h
  simp [List.getD, h]

theorem get?_of_lt (l : List FileItem) (i : Nat) (h : i < l.length) :
    l.get? i = some (l.get ⟨i, h⟩) := by
  rw [List.get?_eq_getElem?, List.getElem?_eq_getElem h]
  rfl

theorem updateItem_eq_set {l : List FileItem} {i : Nat} {x : FileItem}
    (g : FileItem → FileItem) (h : l.get? i = some x) :
    updateItem l i g = l.set i (g x) := by
  unfold updateItem
  rw [h]

theorem updateItem_length (l : List FileItem) (i : Nat) (g : FileItem → FileItem) :
    (updateItem l i g).length = l.length := by
  unfold updateItem
  cases h : l.get? i
  · rfl
  · exact List.length_set l i _

theorem mem_drop_of_ge {l : List FileItem} {i j : Nat} (hij : i ≤ j) {f : FileItem}
    (hf : f ∈ l.drop j) : f ∈ l.drop i := by
  have h2 : (l.drop i).drop (j - i) = l.drop j := by
    rw [List.drop_drop]
    congr 1
    omega
  rw [← h2] at hf
  exact List.drop_subset _ _ hf

theorem drop_set_cons (l : List FileItem) (i : Nat) (a : FileItem) (h : i < l.length) :
    (l.set i a).drop i = a :: l.drop (i + 1) := by
  have h2 : i < (l.set i a).length := by rw [List.length_set]; exact h
  rw [List.drop_eq_getElem_cons h2]
  congr 1
  · exact List.getElem_set_self _
  · exact List.drop_set_of_lt a l (by omega)

theorem item_at_cursor_clear {m : model} (h3 : ∀ f ∈ m.files.drop m.currentFile,
    f.Decided = false ∧ f.Skipped = false) (hc : m.currentFile < m.files.length) :
    (m.files.get ⟨m.currentFile, hc⟩).Decided = false ∧
    (m.files.get ⟨m.currentFile, hc⟩).Skipped = false := by
  apply h3
  rw [List.drop_eq_getElem_cons hc]
  exact List.mem_cons_self _ _

theorem prepareConfirmation_files (m : model) : (prepareConfirmation m).files = m.files := rfl

theorem prepareConfirmation_currentFile (m : model) :
    (prepareConfirmation m).currentFile = m.currentFile := rfl

theorem prepConfLoop_toDelete (fs : List FileItem) (td ts : List FileItem) (tot : Int) :
    (prepareConfLoop fs td ts tot).1 = td ++ fs.filter (fun f => f.Decided && !f.Keep) := by
  induction fs generalizing td ts tot with
  | nil => simp [prepareConfLoop]
  | cons f rest ih =>
    cases hd : f.Decided <;> cases hkp : f.Keep <;> cases h2 : f.Skipped <;>
      simp [prepareConfLoop, hd, hkp, h2, ih, List.filter_cons]

theorem prepConfLoop_toSkip (fs : List FileItem) (td ts : List FileItem) (tot : Int) :
    (prepareConfLoop fs td ts tot).2.1 =
      ts ++ fs.filter (fun f => !(f.Decided && !f.Keep) && f.Skipped) := by
  induction fs generalizing td ts tot with
  | nil => simp [prepareConfLoop]
  | cons f rest ih =>
    cases hd : f.Decided <;> cases hkp : f.Keep <;> cases h2 : f.Skipped <;>
      simp [prepareConfLoop, hd, hkp, h2, ih, List.filter_cons]

theorem prepareConfirmation_toDelete (m : model) :
    (prepareConfirmation m).toDelete = m.files.filter (fun f => f.Decided && !f.Keep) := by
  show (prepareConfLoop m.files [] [] 0).1 = _
  rw [prepConfLoop_toDelete]
  rfl

theorem prepareConfirmation_toSkip (m : model) :
    (prepareConfirmation m).toSkip =
      m.files.filter (fun f => !(f.Decided && !f.Keep) && f.Skipped) := by
  show (prepareConfLoop m.files [] [] 0).2.1 = _
  rw [prepConfLoop_toSkip]
  rfl

/-- nextFile's loop changes only the cursor, the screen and (on completion)
the confirmation sets. -/
theorem nextFileLoop_fields (m : model) :
    (nextFileLoop m).files = m.files ∧
    (nextFileLoop m).progress = m.progress ∧
    (nextFileLoop m).maxProgress = m.maxProgress ∧
    (nextFileLoop m).spinner = m.spinner ∧
    (nextFileLoop m).err = m.err ∧
    ((nextFileLoop m).screen = m.screen ∨ (nextFileLoop m).screen = Screen.ScreenConfirm) := by
  generalize hk : m.files.length - m.currentFile = k
  induction k generalizing m with
  | zero =>
    rw [nextFileLoop]
    have hle : m.files.length ≤ m.currentFile + 1 := by omega
    rw [dif_pos hle]
    exact ⟨rfl, rfl, rfl, rfl, rfl, Or.inr rfl⟩
  | succ n ih =>
    rw [nextFileLoop]
    by_cases hend : m.files.length ≤ m.currentFile + 1
    · rw [dif_pos hend]
      exact ⟨rfl, rfl, rfl, rfl, rfl, Or.inr rfl⟩
    · rw [dif_neg hend]
      by_cases hsk : (m.files.getD (m.currentFile + 1) noFile).Skipped
      · rw [if_pos hsk]
        exact ih { m with currentFile := m.currentFile + 1 } (by simp; omega)
      · rw [if_neg hsk]
        exact ⟨rfl, rfl, rfl, rfl, rfl, Or.inl rfl⟩

/-- Started below the end of the list, nextFile's loop lands exactly where
the spec's traversal rule says: strictly beyond the old cursor, at most at
the end, on a non-deferred item when inside the list, switching to the
Confirm screen exactly when it reaches the end. -/
theorem nextFileLoop_cursor (m : model) (h : m.currentFile < m.files.length) :
    (nextFileLoop m).currentFile = specAdvanceGo m.files (m.currentFile + 1) ∧
    m.currentFile < (nextFileLoop m).currentFile ∧
    (nextFileLoop m).currentFile ≤ m.files.length ∧
    ((nextFileLoop m).currentFile < m.files.length →
        (nextFileLoop m).screen = m.screen ∧
        (m.files.getD (nextFileLoop m).currentFile noFile).Skipped = false) ∧
    ((nextFileLoop m).currentFile = m.files.length →
        (nextFileLoop m).screen = Screen.ScreenConfirm) := by
  generalize hk : m.files.length - m.currentFile = k
  induction k generalizing m with
  | zero => exact absurd h (by omega)
  | succ n ih =>
    rw [nextFileLoop]
    by_cases hend : m.files.length ≤ m.currentFile + 1
    · rw [dif_pos hend]
      have hcc : m.currentFile + 1 = m.files.length := by omega
      refine ⟨?_, Nat.lt_succ_self m.currentFile, Nat.le_of_eq hcc, ?_, fun _ => rfl⟩
      · rw [specAdvanceGo, dif_neg (by omega)]
        exact hcc
      · intro hlt
        exact absurd (show m.currentFile + 1 < m.files.length from hlt) (by omega)
    · rw [dif_neg hend]
      by_cases hsk : (m.files.getD (m.currentFile + 1) noFile).Skipped
      · rw [if_pos hsk]
        have hlt : m.currentFile + 1 < m.files.length := by omega
        have ihr := ih { m with currentFile := m.currentFile + 1 } hlt (by simp; omega)
        dsimp only at ihr
        rw [specAdvanceGo, dif_pos hlt, if_pos hsk]
        refine ⟨ihr.1, ?_, ihr.2.2.1, ihr.2.2.2.1, ihr.2.2.2.2⟩
        have h21 := ihr.2.1
        omega
      · rw [if_neg hsk]
        have hlt : m.currentFile + 1 < m.files.length := by omega
        refine ⟨?_, Nat.lt_succ_self m.currentFile, Nat.le_of_lt hlt, ?_, ?_⟩
        · rw [specAdvanceGo, dif_pos hlt, if_neg hsk]
        · intro _
          refine ⟨rfl, ?_⟩
          show (m.files.getD (m.currentFile + 1) noFile).Skipped = false
          simpa using hsk
        · intro he
          exact absurd (show m.currentFile + 1 = m.files.length from he) (by omega)

/-- Writing any decision-respecting change at the cursor item and then
advancing with nextFile preserves the session invariant. The hypothesis on
g covers both the decide branches (which set Decided on a non-deferred
item) and the skip branch (which defers an undecided item). -/
theorem inv_write_advance (m : model) (hInv : SessionInv m)
    (hscr : m.screen = Screen.ScreenReview) (g : FileItem → FileItem)
    (hok : ∀ x, x.Decided = false → x.Skipped = false →
      ((g x).Decided = true → (g x).Skipped = false)) :
    SessionInv (nextFileLoop { m with files := updateItem m.files m.currentFile g }) := by
  obtain ⟨h1, h2, h3, h4⟩ := hInv
  have hc : m.currentFile < m.files.length := h2 hscr
  have hget : m.files.get? m.currentFile = some (m.files.get ⟨m.currentFile, hc⟩) :=
    get?_of_lt _ _ hc
  have hclear := item_at_cursor_clear h3 hc
  have hupd : updateItem m.files m.currentFile g =
      m.files.set m.currentFile (g (m.files.get ⟨m.currentFile, hc⟩)) :=
    updateItem_eq_set g hget
  have hm1cl : ({ m with files := updateItem m.files m.currentFile g } : model).currentFile <
      ({ m with files := updateItem m.files m.currentFile g } : model).files.length := by
    show m.currentFile < (updateItem m.files m.currentFile g).length
    rw [updateItem_length]
    exact hc
  have hfld := nextFileLoop_fields { m with files := updateItem m.files m.currentFile g }
  have hcur := nextFileLoop_cursor { m with files := updateItem m.files m.currentFile g } hm1cl
  rw [updateItem_length] at hcur
  refine ⟨?_, ?_, ?_, ?_⟩
  · rw [hfld.1]
    show _ ≤ (updateItem m.files m.currentFile g).length
    rw [updateItem_length]
    exact hcur.2.2.1
  · intro hs
    rcases Nat.lt_or_ge (nextFileLoop { m with files := updateItem m.files m.currentFile g }).currentFile
        m.files.length with hlt | hge
    · rw [hfld.1]
      show _ < (updateItem m.files m.currentFile g).length
      rw [updateItem_length]
      exact hlt
    · have heq := Nat.le_antisymm hcur.2.2.1 hge
      have hconf := hcur.2.2.2.2 heq
      rw [hs] at hconf
      exact absurd hconf (by decide)
  · intro f hf
    rw [hfld.1] at hf
    have hgt : m.currentFile < (nextFileLoop
        { m with files := updateItem m.files m.currentFile g }).currentFile := hcur.2.1
    have hf2 : f ∈ (m.files.set m.currentFile (g (m.files.get ⟨m.currentFile, hc⟩))).drop
        (nextFileLoop { m with files := updateItem m.files m.currentFile g }).currentFile := by
      rw [← hupd]
      exact hf
    rw [List.drop_set_of_lt _ m.files hgt] at hf2
    exact h3 f (mem_drop_of_ge (Nat.le_of_lt hgt) hf2)
  · intro f hf
    rw [hfld.1] at hf
    have hf2 : f ∈ m.files.set m.currentFile (g (m.files.get ⟨m.currentFile, hc⟩)) := by
      rw [← hupd]
      exact hf
    rcases List.mem_or_eq_of_mem_set hf2 with hmem | heq
    · exact h4 f hmem
    · subst heq
      exact hok _ hclear.1 hclear.2

/-- Every key event preserves the session invariant. -/
theorem sessionInv_step (m : model) (s : String) (h : SessionInv m) :
    SessionInv (Update m (Msg.key s)).1 := by
  obtain ⟨h1, h2, h3, h4⟩ := h
  cases hscr : m.screen with
  | ScreenReview =>
    have hred : Update m (Msg.key s) = handleReviewInput m s := by
      simp [Update, hscr]
    rw [hred]
    have hc : m.currentFile < m.files.length := h2 hscr
    unfold handleReviewInput
    by_cases k1 : (s == "right" || s == "l" || s == "y") = true
    · rw [if_pos k1]
      exact inv_write_advance m ⟨h1, h2, h3, h4⟩ hscr _ (fun x _ hs _ => hs)
    · rw [if_neg k1]
      by_cases k2 : (s == "left" || s == "h" || s == "n") = true
      · rw [if_pos k2]
        exact inv_write_advance m ⟨h1, h2, h3, h4⟩ hscr _ (fun x _ hs _ => hs)
      · rw [if_neg k2]
        by_cases k3 : (s == "s") = true
        · rw [if_pos k3]
          refine inv_write_advance m ⟨h1, h2, h3, h4⟩ hscr _ (fun x hd _ hdec => ?_)
          exact absurd (show x.Decided = true from hdec) (by rw [hd]; decide)
        · rw [if_neg k3]
          by_cases k4 : (s == "u") = true
          · rw [if_pos k4]
            by_cases k5 : 0 < m.currentFile
            · rw [if_pos k5]
              have hcm1 : m.currentFile - 1 < m.files.length := by omega
              have hget : m.files.get? (m.currentFile - 1) =
                  some (m.files.get ⟨m.currentFile - 1, hcm1⟩) := get?_of_lt _ _ hcm1
              have hupd : clearAt m.files (m.currentFile - 1) =
                  m.files.set (m.currentFile - 1)
                    { m.files.get ⟨m.currentFile - 1, hcm1⟩ with
                        Decided := false, Skipped := false } :=
                updateItem_eq_set _ hget
              refine ⟨?_, ?_, ?_, ?_⟩
              · show m.currentFile - 1 ≤ (clearAt m.files (m.currentFile - 1)).length
                show m.currentFile - 1 ≤ (updateItem m.files (m.currentFile - 1) _).length
                rw [updateItem_length]
                omega
              · intro _
                show m.currentFile - 1 < (clearAt m.files (m.currentFile - 1)).length
                show m.currentFile - 1 < (updateItem m.files (m.currentFile - 1) _).length
                rw [updateItem_length]
                omega
              · intro f hf
                have hf2 : f ∈ (clearAt m.files (m.currentFile - 1)).drop (m.currentFile - 1) := hf
                rw [hupd, drop_set_cons m.files (m.currentFile - 1) _ hcm1] at hf2
                rcases List.mem_cons.mp hf2 with heq | hmem
                · subst heq
                  exact ⟨rfl, rfl⟩
                · have hcm2 : m.currentFile - 1 + 1 = m.currentFile := by omega
                  rw [hcm2] at hmem
                  exact h3 f hmem
              · intro f hf
                have hf2 : f ∈ clearAt m.files (m.currentFile - 1) := hf
                rw [hupd] at hf2
                rcases List.mem_or_eq_of_mem_set hf2 with hmem | heq
                · exact h4 f hmem
                · subst heq
                  intro _
                  rfl
            · rw [if_neg k5]
              exact show SessionInv m from ⟨h1, h2, h3, h4⟩
          · rw [if_neg k4]
            by_cases k6 : (s == "q") = true
            · rw [if_pos k6]
              exact show SessionInv m from ⟨h1, h2, h3, h4⟩
            · rw [if_neg k6]
              exact show SessionInv m from ⟨h1, h2, h3, h4⟩
  | ScreenConfirm =>
    have hred : Update m (Msg.key s) = handleConfirmInput m s := by
      simp [Update, hscr]
    rw [hred]
    unfold handleConfirmInput
    by_cases k1 : (s == "y") = true
    · rw [if_pos k1]
      refine ⟨h1, ?_, h3, h4⟩
      intro hs
      exact Screen.noConfusion hs
    · rw [if_neg k1]
      by_cases k2 : (s == "n" || s == "q") = true
      · rw [if_pos k2]
        exact show SessionInv m from ⟨h1, h2, h3, h4⟩
      · rw [if_neg k2]
        exact show SessionInv m from ⟨h1, h2, h3, h4⟩
  | ScreenComplete =>
    have hred : (Update m (Msg.key s)).1 = m := by
      simp only [Update, hscr]
      by_cases k1 : (s == "q" || s == "ctrl+c") = true
      · rw [if_pos k1]
      · rw [if_neg k1]
        by_cases k2 : (s == "ctrl+c") = true
        · rw [if_pos k2]
        · rw [if_neg k2]
    rw [hred]
    exact ⟨h1, h2, h3, h4⟩
  | ScreenLoading =>
    have hred : (Update m (Msg.key s)).1 = m := by
      simp only [Update, hscr]
      by_cases k2 : (s == "ctrl+c") = true
      · rw [if_pos k2]
      · rw [if_neg k2]
    rw [hred]
    exact ⟨h1, h2, h3, h4⟩
  | ScreenProgress =>
    have hred : (Update m (Msg.key s)).1 = m := by
      simp only [Update, hscr]
      by_cases k2 : (s == "ctrl+c") = true
      · rw [if_pos k2]
      · rw [if_neg k2]
    rw [hred]
    exact ⟨h1, h2, h3, h4⟩

/-- Every reachable session state satisfies the invariant. -/
theorem reach_inv (m : model) (h : Reach m) : SessionInv m := by
  induction h with
  | base fs hfs =>
    by_cases h0 : fs.length = 0
    · have hred : (Update initialModel (Msg.filesLoaded fs)).1 =
          { initialModel with files := fs, screen := Screen.ScreenComplete } := by
        simp [Update, h0]
      rw [hred]
      refine ⟨?_, ?_, ?_, ?_⟩
      · exact Nat.zero_le _
      · intro hs
        exact Screen.noConfusion hs
      · intro f hf
        exact hfs f (List.drop_subset _ _ hf)
      · intro f hf _
        exact (hfs f hf).2
    · have hred : (Update initialModel (Msg.filesLoaded fs)).1 =
          { initialModel with files := fs, screen := Screen.ScreenReview } := by
        simp [Update, h0]
      rw [hred]
      refine ⟨?_, ?_, ?_, ?_⟩
      · exact Nat.zero_le _
      · intro _
        show 0 < fs.length
        omega
      · intro f hf
        exact hfs f (List.drop_subset _ _ hf)
      · intro f hf _
        exact (hfs f hf).2
  | step m s _ ih => exact sessionInv_step m s ih

/-- One-step equation of nextFile's loop: the cursor has reached past the
end, so the confirmation sets are prepared and the screen flips. -/
theorem nextFileLoop_end (m : model) (h : m.files.length ≤ m.currentFile + 1) :
    nextFileLoop m =
      { prepareConfirmation { m with currentFile := m.currentFile + 1 } with
          screen := Screen.ScreenConfirm } := by
  rw [nextFileLoop]
  rw [dif_pos h]

/-- One-step equation of nextFile's loop: the next slot exists and is not
skipped, so the cursor lands there. -/
theorem nextFileLoop_stop (m : model) (h : ¬m.files.length ≤ m.currentFile + 1)
    (hsk : (m.files.getD (m.currentFile + 1) noFile).Skipped = false) :
    nextFileLoop m = { m with currentFile := m.currentFile + 1 } := by
  rw [nextFileLoop]
  rw [dif_neg h, if_neg (by rw [hsk]; exact Bool.false_ne_true)]

/-- One-step equation of nextFile's loop: the next slot is skipped. -/
theorem nextFileLoop_skip (m : model) (h : ¬m.files.length ≤ m.currentFile + 1)
    (hsk : (m.files.getD (m.currentFile + 1) noFile).Skipped = true) :
    nextFileLoop m = nextFileLoop { m with currentFile := m.currentFile + 1 } := by
  rw [nextFileLoop]
  rw [dif_neg h, if_pos hsk]

/-- deleteFiles always finishes with the bare completion message, whatever
the removal outcomes were. -/
theorem runDeleteFiles_msg (ok : String → Bool) (fs : List String) (td : List FileItem) :
    (runDeleteFiles ok fs td).2 = Msg.deletionComplete := by
  induction td generalizing fs with
  | nil => rfl
  | cons f rest ih => exact ih (removeAll ok fs f.Path)

/-- The item at the index an undo writes ends up Undecided and not deferred
(whether or not the index is in range). -/
theorem clearAt_getD (l : List FileItem) (i : Nat) :
    ((clearAt l i).getD i noFile).Decided = false ∧
    ((clearAt l i).getD i noFile).Skipped = false := by
  unfold clearAt updateItem
  cases hg : l.get? i with
  | none =>
    have hnil : l.getD i noFile = noFile := by
      rw [List.get?_eq_getElem?] at hg
      simp [List.getD, hg]
    rw [hnil]
    exact ⟨rfl, rfl⟩
  | some x =>
    have hi : i < l.length := by
      by_contra hcon
      rw [List.get?_eq_getElem?, List.getElem?_eq_none (by omega)] at hg
      cases hg
    rw [getD_set_self l i _ hi]
    exact ⟨rfl, rfl⟩

/-- No review key changes the progress counter. -/
theorem handleReviewInput_progress (m : model) (s : String) :
    ((handleReviewInput m s).1).progress = m.progress := by
  unfold handleReviewInput
  by_cases k1 : (s == "right" || s == "l" || s == "y") = true
  · rw [if_pos k1]
    exact (nextFileLoop_fields _).2.1
  · rw [if_neg k1]
    by_cases k2 : (s == "left" || s == "h" || s == "n") = true
    · rw [if_pos k2]
      exact (nextFileLoop_fields _).2.1
    · rw [if_neg k2]
      by_cases k3 : (s == "s") = true
      · rw [if_pos k3]
        exact (nextFileLoop_fields _).2.1
      · rw [if_neg k3]
        by_cases k4 : (s == "u") = true
        · rw [if_pos k4]
          by_cases k5 : 0 < m.currentFile
          · rw [if_pos k5]
          · rw [if_neg k5]
        · rw [if_neg k4]
          by_cases k6 : (s == "q") = true
          · rw [if_pos k6]
          · rw [if_neg k6]

/-- No confirmation key changes the progress counter. -/
theorem handleConfirmInput_progress (m : model) (s : String) :
    ((handleConfirmInput m s).1).progress = m.progress := by
  unfold handleConfirmInput
  by_cases k1 : (s == "y") = true
  · rw [if_pos k1]
  · rw [if_neg k1]
    by_cases k2 : (s == "n" || s == "q") = true
    · rw [if_pos k2]
    · rw [if_neg k2]

/-- The observable effect of a decide on an invariant-satisfying Review
state: the current item gets the chosen decision with its deferred flag
still clear, and the cursor moves per the traversal rule. -/
theorem decide_effect (m : model) (b : Bool)
    (hInv : SessionInv m) (hs : m.screen = Screen.ScreenReview) :
    m.currentFile < m.files.length ∧
    ((nextFileLoop { m with files := setDecision m.files m.currentFile b }).files.getD
        m.currentFile noFile).Decided = true ∧
    ((nextFileLoop { m with files := setDecision m.files m.currentFile b }).files.getD
        m.currentFile noFile).Keep = b ∧
    ((nextFileLoop { m with files := setDecision m.files m.currentFile b }).files.getD
        m.currentFile noFile).Skipped = false ∧
    (nextFileLoop { m with files := setDecision m.files m.currentFile b }).currentFile =
      specAdvance
        (nextFileLoop { m with files := setDecision m.files m.currentFile b }).files
        m.currentFile := by
  obtain ⟨h1, h2, h3, h4⟩ := hInv
  have hc := h2 hs
  have hget := get?_of_lt m.files m.currentFile hc
  have hclear := item_at_cursor_clear h3 hc
  have hupd : setDecision m.files m.currentFile b =
      m.files.set m.currentFile
        { m.files.get ⟨m.currentFile, hc⟩ with Keep := b, Decided := true } :=
    updateItem_eq_set _ hget
  have hm1cl : ({ m with files := setDecision m.files m.currentFile b } : model).currentFile <
      ({ m with files := setDecision m.files m.currentFile b } : model).files.length := by
    show m.currentFile < (updateItem m.files m.currentFile _).length
    rw [updateItem_length]
    exact hc
  have hfld := nextFileLoop_fields { m with files := setDecision m.files m.currentFile b }
  have hcur := nextFileLoop_cursor { m with files := setDecision m.files m.currentFile b } hm1cl
  refine ⟨hc, ?_, ?_, ?_, ?_⟩
  · rw [hfld.1]
    show ((setDecision m.files m.currentFile b).getD m.currentFile noFile).Decided = true
    rw [hupd, getD_set_self m.files m.currentFile _ hc]
  · rw [hfld.1]
    show ((setDecision m.files m.currentFile b).getD m.currentFile noFile).Keep = b
    rw [hupd, getD_set_self m.files m.currentFile _ hc]
  · rw [hfld.1]
    show ((setDecision m.files m.currentFile b).getD m.currentFile noFile).Skipped = false
    rw [hupd, getD_set_self m.files m.currentFile _ hc]
    exact hclear.2
  · rw [hfld.1]
    exact hcur.1

/-- The walk callback applied to an immediate child of the root: dot-named
entries contribute nothing, every other entry contributes exactly its item,
directories are never descended into, and the walk always proceeds to the
next sibling. -/
theorem walkEntry_child (acc : List FileItem) (e : Entry) (hn : e.name ≠ ".") :
    walkEntry (scanCallback ".") acc e.name e =
      (acc ++ (if e.name.startsWith "." then [] else [scanItem e]), false) := by
  cases e with
  | file nm sz mt ls =>
    have hn2 : ¬(nm = ".") := by simpa [Entry.name] using hn
    have hcb : scanCallback "." acc nm (Entry.file nm sz mt ls) =
        (acc ++ (if nm.startsWith "." then [] else [scanItem (Entry.file nm sz mt ls)]),
          WalkAction.cont) := by
      unfold scanCallback
      rw [if_neg hn2]
      by_cases hdot : nm.startsWith "."
      · simp only [relPathFromDot]
        rw [if_pos hdot]
        simp [Entry.isDir, hdot]
      · simp only [relPathFromDot]
        rw [if_neg hdot]
        simp [Entry.isDir, hdot, scanItem, Entry.name, Entry.size, Entry.modTime, Entry.lines]
    rw [walkEntry.eq_def]
    simp only [Entry.name]
    rw [hcb]
  | dir nm sz mt children =>
    have hn2 : ¬(nm = ".") := by simpa [Entry.name] using hn
    have hcb : scanCallback "." acc nm (Entry.dir nm sz mt children) =
        (acc ++ (if nm.startsWith "." then [] else [scanItem (Entry.dir nm sz mt children)]),
          WalkAction.skipDir) := by
      unfold scanCallback
      rw [if_neg hn2]
      by_cases hdot : nm.startsWith "."
      · simp only [relPathFromDot]
        rw [if_pos hdot]
        simp [Entry.isDir, hdot]
      · simp only [relPathFromDot]
        rw [if_neg hdot]
        simp [Entry.isDir, hdot, scanItem, Entry.name, Entry.size, Entry.modTime, Entry.lines]
    rw [walkEntry.eq_def]
    simp only [Entry.name]
    rw [hcb]

theorem walkEntries_scan (es : List Entry) (acc : List FileItem)
    (h : ∀ e ∈ es, e.name ≠ ".") :
    walkEntries (scanCallback ".") acc "." es = acc ++ scanExpected es := by
  induction es generalizing acc with
  | nil => simp [walkEntries, scanExpected]
  | cons e rest ih =>
    have hn : e.name ≠ "." := h e (List.mem_cons_self _ _)
    have hrest : ∀ x ∈ rest, x.name ≠ "." := fun x hx => h x (List.mem_cons_of_mem _ hx)
    have hjoin : joinPath "." e.name = e.name := by simp [joinPath]
    rw [walkEntries.eq_def]
    simp only [hjoin]
    rw [walkEntry_child acc e hn]
    show walkEntries (scanCallback ".")
        (acc ++ if e.name.startsWith "." then [] else [scanItem e]) "." rest =
      acc ++ scanExpected (e :: rest)
    by_cases hdot : e.name.startsWith "."
    · rw [if_pos hdot, List.append_nil, ih acc hrest]
      simp [scanExpected, List.filter_cons, hdot]
    · rw [if_neg hdot, ih (acc ++ [scanItem e]) hrest]
      simp [scanExpected, List.filter_cons, hdot]


/-! ### Concrete fixtures for counterexamples and witnesses -/

/-- A freshly scanned ordinary file item. -/
def itemCleanA : FileItem :=
  { Path := "a.txt", Name := "a.txt", IsDir := false, Size := 10, ModTime := 0,
    Preview := "", Keep := false, Decided := false, Skipped := false }

def itemCleanB : FileItem :=
  { itemCleanA with Path := "b.txt", Name := "b.txt", Size := 20 }

def itemCleanC : FileItem :=
  { itemCleanA with Path := "c.txt", Name := "c.txt", Size := 30 }

/-- Items already decided for deletion (Decided, not Keep). -/
def itemDelA : FileItem := { itemCleanA with Decided := true }

def itemDelB : FileItem := { itemCleanB with Decided := true }

/-- A deferred (skipped) item. -/
def itemSkippedA : FileItem := { itemCleanA with Skipped := true }

def itemSkippedB : FileItem := { itemCleanB with Skipped := true }

/-- The model mid-deletion with two files in the pending deletion set. -/
def mProgressC1 : model :=
  { initialModel with
      screen := Screen.ScreenProgress
      files := [itemDelA, itemDelB]
      currentFile := 2
      toDelete := [itemDelA, itemDelB]
      maxProgress := 2
      totalSize := 30 }

/-- The abstract filesystem contents during the C1 scenario. -/
def fsDiskC1 : List String := ["a.txt", "b.txt", "c.txt"]

/-- Removal oracle that always succeeds. -/
def okAll : String → Bool := fun _ => true

/-- Removal oracle that fails exactly on b.txt. -/
def failOnB : String → Bool := fun p => !(p == "b.txt")

/-! ### Claims -/

/-- C1, counterexample: the claim says the Complete screen reports both the
deleted and failed counts and that the completion signal carries the counts
{succeeded, failed}. In the code deleteFiles discards every os.RemoveAll
error and returns the bare deletionCompleteMsg: a run in which both
removals succeed and a run in which b.txt fails to delete produce the very
same completion message, even though they leave different filesystems, and
the Complete screen then reports "Files deleted: 2" with no failed count at
all. -/
theorem c1_counterexample :
    (runDeleteFiles okAll fsDiskC1 mProgressC1.toDelete).2 =
      (runDeleteFiles failOnB fsDiskC1 mProgressC1.toDelete).2 ∧
    (runDeleteFiles okAll fsDiskC1 mProgressC1.toDelete).1 ≠
      (runDeleteFiles failOnB fsDiskC1 mProgressC1.toDelete).1 ∧
    View idRenderer (Update mProgressC1 Msg.deletionComplete).1 =
      "\nComplete\n\nDeletion complete!\n\nFiles deleted: 2\nSpace freed: 30 B\n\nPress q to quit" := by
  refine ⟨rfl, by decide, rfl⟩

/-- C1, amended: after the deletion batch finishes, the executor reports
only the bare completion signal — it carries no {succeeded, failed} counts
and is the same for every pattern of per-item failures — and the Complete
screen the controller then shows is fully determined by the pre-deletion
model (it reports the planned deletion count as "Files deleted" and the
planned total size), so removal failures are never reflected on it. -/
theorem c1_bare_completion_signal (ok : String → Bool) (fs : List String)
    (m : model) (r : Renderer) :
    (runDeleteFiles ok fs m.toDelete).2 = Msg.deletionComplete ∧
    (Update m (runDeleteFiles ok fs m.toDelete).2).1.screen = Screen.ScreenComplete ∧
    View r (Update m (runDeleteFiles ok fs m.toDelete).2).1 =
      View r { m with screen := Screen.ScreenComplete } := by
  have hmsg := runDeleteFiles_msg ok fs m.toDelete
  refine ⟨hmsg, ?_, ?_⟩ <;> rw [hmsg] <;> rfl

/-- A one-file Review screen state. -/
def mReviewC2 : model :=
  { initialModel with screen := Screen.ScreenReview, files := [itemCleanA] }

/-- A Confirm screen state with one pending deletion. -/
def mConfirmC2 : model :=
  { initialModel with
      screen := Screen.ScreenConfirm
      files := [itemDelA]
      currentFile := 1
      toDelete := [itemDelA]
      totalSize := 10 }

/-- C2: the claim says ctrl+c terminates the program from every screen. On
the Review and Confirm screens the key switch returns through the
per-screen handlers, which have no ctrl+c case, so the trailing global
ctrl+c check is never reached there and the key produces no command; only
Loading, Progress and Complete actually quit on ctrl+c. -/
theorem c2_ctrlc_ignored_in_review_and_confirm :
    Update mReviewC2 (Msg.key "ctrl+c") = (mReviewC2, Cmd.none) ∧
    Update mConfirmC2 (Msg.key "ctrl+c") = (mConfirmC2, Cmd.none) ∧
    (Update { mReviewC2 with screen := Screen.ScreenLoading } (Msg.key "ctrl+c")).2 = Cmd.quit ∧
    (Update { mReviewC2 with screen := Screen.ScreenProgress } (Msg.key "ctrl+c")).2 = Cmd.quit ∧
    (Update { mReviewC2 with screen := Screen.ScreenComplete } (Msg.key "ctrl+c")).2 = Cmd.quit :=
  ⟨rfl, rfl, rfl, rfl, rfl⟩

/-- A Review state whose current item is deferred (not reachable in a run,
but within the quantification of the claim over all session states). -/
def mReviewC3 : model :=
  { initialModel with screen := Screen.ScreenReview, files := [itemSkippedA] }

/-- C3, counterexample: the claim says a decide clears the current item's
deferred flag. The keep/delete branches of handleReviewInput only write
Keep and Decided; on a state whose current item has the deferred flag set,
deciding keep leaves the flag set. -/
theorem c3_counterexample :
    ((Update mReviewC3 (Msg.key "y")).1.files.getD 0 noFile).Decided = true ∧
    ((Update mReviewC3 (Msg.key "y")).1.files.getD 0 noFile).Keep = true ∧
    ((Update mReviewC3 (Msg.key "y")).1.files.getD 0 noFile).Skipped = true := by
  have hred : (Update mReviewC3 (Msg.key "y")).1 =
      nextFileLoop { mReviewC3 with
        files := setDecision mReviewC3.files mReviewC3.currentFile true } := rfl
  rw [hred, (nextFileLoop_fields _).1]
  refine ⟨rfl, rfl, rfl⟩

/-- C3, amended: in every reachable session state showing the Review screen
the cursor is strictly before the end of the list, and a decide key sets
the current item's decision to the chosen outcome and advances the cursor
per the traversal rule; the item ends up not deferred because reachable
states never present a deferred item at the cursor (the code never clears
the flag on decide, and decide at the end of the list cannot occur — out of
range the Go code would panic rather than return a no-op error). -/
theorem c3_decide_sets_decision_and_advances (m : model) (k : String) (b : Bool)
    (hm : Reach m) (hs : m.screen = Screen.ScreenReview)
    (hk : (b = true ∧ (k = "right" ∨ k = "l" ∨ k = "y")) ∨
          (b = false ∧ (k = "left" ∨ k = "h" ∨ k = "n"))) :
    m.currentFile < m.files.length ∧
    ((Update m (Msg.key k)).1.files.getD m.currentFile noFile).Decided = true ∧
    ((Update m (Msg.key k)).1.files.getD m.currentFile noFile).Keep = b ∧
    ((Update m (Msg.key k)).1.files.getD m.currentFile noFile).Skipped = false ∧
    (Update m (Msg.key k)).1.currentFile =
      specAdvance (Update m (Msg.key k)).1.files m.currentFile ∧
    (Update m (Msg.key k)).2 = Cmd.none := by
  have hInv := reach_inv m hm
  have hred : Update m (Msg.key k) = handleReviewInput m k := by
    simp [Update, hs]
  have hde := decide_effect m b hInv hs
  rcases hk with ⟨hb, hkk⟩ | ⟨hb, hkk⟩ <;> subst hb <;>
    rcases hkk with rfl | rfl | rfl <;> rw [hred] <;>
    exact ⟨hde.1, hde.2.1, hde.2.2.1, hde.2.2.2.1, hde.2.2.2.2, rfl⟩

/-- Two clean items, as the scanner would deliver them. -/
def fsReachC3 : List FileItem := [itemCleanA, itemCleanB]

/-- The session right after loading fsReachC3. -/
def mStartC3 : model := (Update initialModel (Msg.filesLoaded fsReachC3)).1

/-- C3 witness: the amended statement applied at a concrete reachable
two-item session with the keep key. -/
theorem c3_witness :
    Reach mStartC3 ∧ mStartC3.screen = Screen.ScreenReview ∧
    mStartC3.currentFile < mStartC3.files.length ∧
    ((Update mStartC3 (Msg.key "y")).1.files.getD mStartC3.currentFile noFile).Decided = true ∧
    ((Update mStartC3 (Msg.key "y")).1.files.getD mStartC3.currentFile noFile).Keep = true ∧
    ((Update mStartC3 (Msg.key "y")).1.files.getD mStartC3.currentFile noFile).Skipped = false ∧
    (Update mStartC3 (Msg.key "y")).1.currentFile =
      specAdvance (Update mStartC3 (Msg.key "y")).1.files mStartC3.currentFile ∧
    (Update mStartC3 (Msg.key "y")).2 = Cmd.none := by
  have hr : Reach mStartC3 := Reach.base fsReachC3 (by decide)
  have h := c3_decide_sets_decision_and_advances mStartC3 "y" true hr rfl
    (Or.inl ⟨rfl, Or.inr (Or.inr rfl)⟩)
  exact ⟨hr, rfl, h.1, h.2.1, h.2.2.1, h.2.2.2.1, h.2.2.2.2.1, h.2.2.2.2.2⟩

/-- C4: in a reachable session whose traversal has completed, the computed
Pending Deletion Set is exactly the items whose decision is Delete, and the
computed Pending Defer Set is exactly the deferred items that are not
finally decided. (The second equality needs the reachability invariant: an
item is never both decided and deferred, so the else-if in
prepareConfirmation collects precisely the deferred undecided items.) -/
theorem c4_final_sets (m : model) (hm : Reach m)
    (_hend : m.currentFile = m.files.length) :
    (prepareConfirmation m).toDelete = specDeleteSet m.files ∧
    (prepareConfirmation m).toSkip = specDeferSet m.files := by
  have hInv := reach_inv m hm
  constructor
  · rw [prepareConfirmation_toDelete]
    rfl
  · rw [prepareConfirmation_toSkip]
    unfold specDeferSet
    apply List.filter_congr
    intro f hf
    have h4 := hInv.2.2.2 f hf
    cases hd : f.Decided
    · simp [hd]
    · have hskf : f.Skipped = false := h4 hd
      simp [hd, hskf]

def fsReachC4 : List FileItem := [itemCleanC]

def mStartC4 : model := (Update initialModel (Msg.filesLoaded fsReachC4)).1

/-- The completed session: the single item was decided Delete. -/
def mDoneC4 : model := (Update mStartC4 (Msg.key "n")).1

/-- C4 witness: a concrete completed one-item session in which the item was
deleted. -/
theorem c4_witness :
    Reach mDoneC4 ∧ mDoneC4.currentFile = mDoneC4.files.length ∧
    (prepareConfirmation mDoneC4).toDelete = specDeleteSet mDoneC4.files ∧
    (prepareConfirmation mDoneC4).toSkip = specDeferSet mDoneC4.files := by
  have hr : Reach mDoneC4 := Reach.step mStartC4 "n" (Reach.base fsReachC4 (by decide))
  have h1 : mDoneC4 = nextFileLoop { mStartC4 with
      files := setDecision mStartC4.files mStartC4.currentFile false } := rfl
  have hend : mDoneC4.currentFile = mDoneC4.files.length := by
    rw [h1, nextFileLoop_end _ (by decide)]
    decide
  exact ⟨hr, hend, (c4_final_sets mDoneC4 hr hend).1, (c4_final_sets mDoneC4 hr hend).2⟩

/-- C5: an advance scans forward from cursor+1, skips every deferred item,
and stops at the first non-deferred item or at the end of the list — so
the new cursor is exactly what the spec's traversal rule computes, and an
advance never lands on a deferred item. -/
theorem c5_advance_follows_traversal_rule (m : model)
    (h : m.currentFile < m.files.length) :
    (nextFileLoop m).currentFile = specAdvance m.files m.currentFile ∧
    ((nextFileLoop m).currentFile = m.files.length ∨
      ((nextFileLoop m).files.getD (nextFileLoop m).currentFile noFile).Skipped = false) := by
  have hcur := nextFileLoop_cursor m h
  have hfld := nextFileLoop_fields m
  refine ⟨hcur.1, ?_⟩
  rcases Nat.lt_or_ge (nextFileLoop m).currentFile m.files.length with hlt | hge
  · right
    rw [hfld.1]
    exact (hcur.2.2.2.1 hlt).2
  · left
    exact Nat.le_antisymm hcur.2.2.1 hge

/-- A Review state whose second slot holds a deferred item, so the advance
has something to skip. -/
def mReviewC5 : model :=
  { initialModel with
      screen := Screen.ScreenReview
      files := [itemCleanA, itemSkippedB, itemCleanC] }

/-- C5 witness: advancing from the first item skips the deferred second
item. -/
theorem c5_witness :
    mReviewC5.currentFile < mReviewC5.files.length ∧
    ((nextFileLoop mReviewC5).currentFile = specAdvance mReviewC5.files mReviewC5.currentFile ∧
      ((nextFileLoop mReviewC5).currentFile = mReviewC5.files.length ∨
        ((nextFileLoop mReviewC5).files.getD (nextFileLoop mReviewC5).currentFile
            noFile).Skipped = false)) :=
  ⟨by decide, c5_advance_follows_traversal_rule mReviewC5 (by decide)⟩

/-- C6: on the Review screen, undo with cursor 0 leaves the state unchanged
and returns no command; with cursor > 0 it moves the cursor back exactly
one physical slot and resets the item there to Undecided with the deferred
flag cleared. -/
theorem c6_undo_steps_back_one_slot (m : model)
    (hs : m.screen = Screen.ScreenReview) :
    (m.currentFile = 0 → Update m (Msg.key "u") = (m, Cmd.none)) ∧
    (0 < m.currentFile →
      (Update m (Msg.key "u")).1.currentFile = m.currentFile - 1 ∧
      ((Update m (Msg.key "u")).1.files.getD (m.currentFile - 1) noFile).Decided = false ∧
      ((Update m (Msg.key "u")).1.files.getD (m.currentFile - 1) noFile).Skipped = false ∧
      (Update m (Msg.key "u")).1.screen = m.screen ∧
      (Update m (Msg.key "u")).2 = Cmd.none) := by
  have hred : Update m (Msg.key "u") = handleReviewInput m "u" := by
    simp [Update, hs]
  rw [hred]
  unfold handleReviewInput
  rw [if_neg (by decide), if_neg (by decide), if_neg (by decide), if_pos (by decide)]
  constructor
  · intro h0
    rw [if_neg (by omega)]
  · intro hpos
    rw [if_pos hpos]
    exact ⟨rfl, (clearAt_getD m.files (m.currentFile - 1)).1,
      (clearAt_getD m.files (m.currentFile - 1)).2, rfl, rfl⟩

/-- A two-item Review state with the first item already decided and the
cursor on the second. -/
def mReviewC6 : model :=
  { initialModel with
      screen := Screen.ScreenReview
      files := [itemDelA, itemCleanB]
      currentFile := 1 }

/-- C6 witness: undo from cursor 1 lands on slot 0 and resets it. -/
theorem c6_witness :
    mReviewC6.screen = Screen.ScreenReview ∧ 0 < mReviewC6.currentFile ∧
    (Update mReviewC6 (Msg.key "u")).1.currentFile = 0 ∧
    ((Update mReviewC6 (Msg.key "u")).1.files.getD 0 noFile).Decided = false ∧
    ((Update mReviewC6 (Msg.key "u")).1.files.getD 0 noFile).Skipped = false := by
  have h := (c6_undo_steps_back_one_slot mReviewC6 rfl).2 (by decide)
  exact ⟨rfl, by decide, h.1, h.2.1, h.2.2.1⟩

/-- C7: in every session state reachable from loading a catalog by any
sequence of key events (in particular decide, defer and undo), the cursor
stays within [0, length] — the lower bound holds because the cursor is a
natural number and undo is guarded by cursor > 0. -/
theorem c7_cursor_in_range (m : model) (hm : Reach m) :
    m.currentFile ≤ m.files.length :=
  (reach_inv m hm).1

def fsReachC7 : List FileItem := [itemCleanA, itemCleanB]

def mStartC7 : model := (Update initialModel (Msg.filesLoaded fsReachC7)).1

def mStepC7 : model := (Update mStartC7 (Msg.key "y")).1

/-- C7 witness: a concrete reachable state after one decide. -/
theorem c7_witness : Reach mStepC7 ∧ mStepC7.currentFile ≤ mStepC7.files.length := by
  have hr : Reach mStepC7 := Reach.step mStartC7 "y" (Reach.base fsReachC7 (by decide))
  exact ⟨hr, c7_cursor_in_range mStepC7 hr⟩

/-- C8: in every reachable session state no item is simultaneously finally
decided and deferred. (With the Decided/Keep boolean representation an item
is Undecided exactly when Decided is false, and a decided item carries
exactly one of keep/delete according to Keep, so the substantive invariant
is the absence of decided-and-deferred items.) -/
theorem c8_no_item_decided_and_deferred (m : model) (hm : Reach m) :
    itemsConsistent m.files = true := by
  have h4 := (reach_inv m hm).2.2.2
  unfold itemsConsistent
  rw [List.all_eq_true]
  intro f hf
  cases hd : f.Decided
  · simp [hd]
  · have hskf : f.Skipped = false := h4 f hf hd
    simp [hd, hskf]

def fsReachC8 : List FileItem := [itemCleanA, itemCleanB]

def mStartC8 : model := (Update initialModel (Msg.filesLoaded fsReachC8)).1

def mStepC8 : model := (Update mStartC8 (Msg.key "s")).1

/-- C8 witness: a concrete reachable state after one defer. -/
theorem c8_witness : Reach mStepC8 ∧ itemsConsistent mStepC8.files = true := by
  have hr : Reach mStepC8 := Reach.step mStartC8 "s" (Reach.base fsReachC8 (by decide))
  exact ⟨hr, c8_no_item_decided_and_deferred mStepC8 hr⟩

/-- A Progress screen state mid-way through a two-item deletion batch. -/
def mProgressC9 : model :=
  { initialModel with
      screen := Screen.ScreenProgress
      files := [itemDelA, itemDelB]
      currentFile := 2
      toDelete := [itemDelA, itemDelB]
      maxProgress := 2
      totalSize := 30 }

/-- C9: the claim says the executor maintains a processed-items count that
increases as items are handled and that the Progress screen displays it.
In the code nothing ever writes model.progress — no branch of Update
touches it and deleteFiles emits no per-item messages — so it stays at its
zero value and the Progress screen permanently shows "0/maxProgress". -/
theorem c9_progress_counter_never_advances :
    (∀ (mm : model) (msg : Msg), (Update mm msg).1.progress = mm.progress) ∧
    initialModel.progress = 0 ∧
    View idRenderer mProgressC9 = "\nProgress\n\n⠋ Deleting files... 0/2" := by
  refine ⟨?_, rfl, rfl⟩
  intro mm msg
  cases msg with
  | key s =>
    cases hscr : mm.screen with
    | ScreenReview =>
      have hred : Update mm (Msg.key s) = handleReviewInput mm s := by
        simp [Update, hscr]
      rw [hred]
      exact handleReviewInput_progress mm s
    | ScreenConfirm =>
      have hred : Update mm (Msg.key s) = handleConfirmInput mm s := by
        simp [Update, hscr]
      rw [hred]
      exact handleConfirmInput_progress mm s
    | ScreenComplete =>
      simp only [Update, hscr]
      by_cases k1 : (s == "q" || s == "ctrl+c") = true
      · rw [if_pos k1]
      · rw [if_neg k1]
        by_cases k2 : (s == "ctrl+c") = true
        · rw [if_pos k2]
        · rw [if_neg k2]
    | ScreenLoading =>
      simp only [Update, hscr]
      by_cases k2 : (s == "ctrl+c") = true
      · rw [if_pos k2]
      · rw [if_neg k2]
    | ScreenProgress =>
      simp only [Update, hscr]
      by_cases k2 : (s == "ctrl+c") = true
      · rw [if_pos k2]
      · rw [if_neg k2]
  | filesLoaded fs =>
    simp only [Update]
    by_cases h0 : fs.length = 0
    · rw [if_pos h0]
    · rw [if_neg h0]
  | deletionComplete => rfl
  | tick =>
    simp only [Update]
    by_cases ht : mm.screen = Screen.ScreenLoading ∨ mm.screen = Screen.ScreenProgress
    · rw [if_pos ht]
    · rw [if_neg ht]
  | errMsg e => rfl

/-- C10: scanning the root returns exactly its immediate children — each
subdirectory reported as a single item and never descended into — and
excludes every entry whose path relative to the root begins with a dot. -/
theorem c10_scan_lists_immediate_children (entries : List Entry)
    (h : entriesNamesOk entries = true) :
    scanDirectory entries = scanExpected entries := by
  have h2 : ∀ e ∈ entries, e.name ≠ "." := by
    intro e he
    have := (List.all_eq_true.mp h) e he
    simpa using this
  unfold scanDirectory
  rw [walkEntry.eq_def]
  have hroot : scanCallback "." ([] : List FileItem) "."
      (Entry.dir "." 0 0 entries) = ([], WalkAction.cont) := by
    unfold scanCallback
    simp
  rw [hroot]
  show (walkEntries (scanCallback ".") [] "." entries, false).1 = _
  rw [walkEntries_scan entries [] h2]
  simp

/-- A small catalog with a plain file, a subdirectory with contents, and
two dot-named entries. -/
def entsC10 : List Entry :=
  [Entry.file "a.txt" 5 0 ["hello", "", "world"],
   Entry.dir "sub" 4096 0 [Entry.file "inner" 7 0 []],
   Entry.file ".hidden" 3 0 [],
   Entry.dir ".git" 0 0 [Entry.file "config" 1 0 []]]

/-- C10 witness: the scan of the concrete catalog. -/
theorem c10_witness :
    entriesNamesOk entsC10 = true ∧ scanDirectory entsC10 = scanExpected entsC10 :=
  ⟨by decide, c10_scan_lists_immediate_children entsC10 (by decide)⟩
